import Mathlib

/-!
Verification development for the order-preserving JSON codec in
`jsonutils/ordered_map.go` (`JSONMapSlice`, `JSONMapItem`).

The byte buffers of the Go code are modelled as `List Char`; the external
tokenizer (`encoding/json.Decoder`) and the external scalar writer
(`WriteJSON`) are collaborators outside this file's source and are modelled
from the spec where noted.
-/

set_option maxRecDepth 4000

namespace OrderedMap

/-- Opening curly brace character (byte 0x7b). -/
def lbraceC : Char := Char.ofNat 123

/-- Closing curly brace character (byte 0x7d). -/
def rbraceC : Char := Char.ofNat 125

/-- The value model: the closed union of values the decoder can place in a
`JSONMapItem.Value` (Go `any`).  `float` carries the numeric literal text of
the float64 value (its exact bit pattern is irrelevant to every claim here);
`obj none` is a nil `JSONMapSlice` held as a value, `obj (some es)` a non-nil
one. -/
inductive JSONValue : Type where
  | null : JSONValue
  | bool (b : Bool) : JSONValue
  | str (s : String) : JSONValue
  | int (n : Int) : JSONValue
  | float (lit : String) : JSONValue
  | arr (elems : List JSONValue) : JSONValue
  | obj (entries : Option (List (String × JSONValue))) : JSONValue

/-- Go `JSONMapItem`: one key/value entry. -/
abbrev JSONMapItem : Type := String × JSONValue

/-- Go `JSONMapSlice`: ordered entries; `none` is the nil slice (the null
sentinel), `some es` a non-nil slice with entries `es`. -/
abbrev JSONMapSlice : Type := Option (List JSONMapItem)

/-- Go `jsonBuffer.appendRawByte`. -/
def appendRawByte (jb : List Char) (b : Char) : List Char := jb ++ [b]

/-- Go `jsonBuffer.appendByteSlice`. -/
def appendByteSlice (jb : List Char) (b : List Char) : List Char := jb ++ b

/-- Go `jsonBuffer.appendString`: wraps the raw bytes in quotation marks.
Note: it performs no escaping. -/
def appendString (jb : List Char) (b : List Char) : List Char :=
  jb ++ '"' :: (b ++ ['"'])

/-- The character of one decimal digit. -/
def digitChr (d : Nat) : Char := Char.ofNat (48 + d)

/-- Go `strconv.FormatInt(_, 10)` digit core for naturals. -/
def natDigits (n : Nat) : List Char :=
  if h : n < 10 then [digitChr n]
  else natDigits (n / 10) ++ [digitChr (n % 10)]
  decreasing_by exact Nat.div_lt_self (by omega) (by omega)

/-- Go `strconv.FormatInt(n, 10)`: decimal text of an integer. -/
def formatInt (n : Int) : String :=
  if n < 0 then ⟨'-' :: natDigits n.natAbs⟩ else ⟨natDigits n.natAbs⟩

/-- Go `strings.ContainsRune`. -/
def containsRune (s : String) (r : Char) : Bool := s.data.contains r

/-- Decimal digit-list value, most significant digit first
(accumulating fold, as `strconv.ParseInt` scans). -/
def parseDigits (l : List Char) : Nat :=
  l.foldl (fun a c => a * 10 + (c.toNat - 48)) 0

/-- Go `strconv.ParseInt(s, 10, 64)`: sign, decimal digits, clamping to the
int64 range on overflow (the Go call returns the clamped value together with
an error that the source discards). -/
def parseInt (s : String) : Int :=
  match s.data with
  | '-' :: ds =>
    let v : Int := (parseDigits ds : Nat)
    if v > 2 ^ 63 then -(2 ^ 63) else -v
  | ds =>
    let v : Int := (parseDigits ds : Nat)
    if v > 2 ^ 63 - 1 then 2 ^ 63 - 1 else v

/-- Modelled from the spec: the external scalar writer's JSON string
escaping (section 6, "scalar JSON writer"; `WriteJSON` is not part of the
source under review).  Quotation marks, backslashes and control characters
are escaped; everything else passes through. -/
def escapeChar (c : Char) : List Char :=
  if c = '"' then ['\\', '"']
  else if c = '\\' then ['\\', '\\']
  else if c.toNat < 32 then
    ['\\', 'u', '0', '0',
     Char.ofNat (if c.toNat / 16 < 10 then 48 + c.toNat / 16 else 87 + c.toNat / 16),
     Char.ofNat (if c.toNat % 16 < 10 then 48 + c.toNat % 16 else 87 + c.toNat % 16)]
  else [c]

/-- Modelled from the spec: the external scalar writer's rendering of a JSON
string (quoted, escaped). -/
def writeJSONString (s : String) : List Char :=
  '"' :: (s.data.flatMap escapeChar) ++ ['"']

mutual
/-- Modelled from the spec: the external `WriteJSON` writer for a leaf value
(section 4.2): scalars render to standard JSON text, arrays to bracketed
comma-joined elements, and a nested `JSONMapSlice` recursively through its
own order-preserving marshaller. -/
def writeJSON : JSONValue → List Char
  | .null => 'n' :: 'u' :: 'l' :: ['l']
  | .bool true => 't' :: 'r' :: 'u' :: ['e']
  | .bool false => 'f' :: 'a' :: 'l' :: 's' :: ['e']
  | .str s => writeJSONString s
  | .int n => (formatInt n).data
  | .float lit => lit.data
  | .arr [] => '[' :: [']']
  | .arr (x :: xs) => '[' :: (writeJSON x ++ arrRestBytes xs) ++ [']']
  | .obj s => sliceMarshal s

/-- Later elements of an array, each preceded by a comma. -/
def arrRestBytes : List JSONValue → List Char
  | [] => []
  | x :: xs => ',' :: writeJSON x ++ arrRestBytes xs

/-- Go `JSONMapSlice.JSONmarshal`: nil renders as `null`; otherwise an
object open brace, the first item, every further item preceded by a comma,
and a close brace (for zero items the braces close immediately). -/
def sliceMarshal : JSONMapSlice → List Char
  | none => 'n' :: 'u' :: 'l' :: ['l']
  | some [] => lbraceC :: [rbraceC]
  | some (e :: es) => lbraceC :: (itemMarshal e ++ entriesRestBytes es) ++ [rbraceC]

/-- Go `JSONMapItem.JSONmarshal`: `appendString` of the raw key bytes (no
escaping), a colon, then the external writer's bytes for the value. -/
def itemMarshal : JSONMapItem → List Char
  | (k, v) => appendByteSlice (appendRawByte (appendString [] k.data) ':') (writeJSON v)

/-- Later items of an object, each preceded by a comma (the `i >= 1` loop of
`JSONMapSlice.JSONmarshal`). -/
def entriesRestBytes : List JSONMapItem → List Char
  | [] => []
  | e :: es => ',' :: itemMarshal e ++ entriesRestBytes es
end

/-- Go `JSONMapSlice.MarshalJSON`: runs `JSONmarshal` into a fresh buffer and
returns the buffer together with `w.err` — a field no code path ever
assigns, hence always `none`. -/
def MarshalJSON (s : JSONMapSlice) : List Char × Option String :=
  (sliceMarshal s, none)

/-! ## The decoder model

`encoding/json.Decoder.Token` is the external tokenizer (spec section 6).
For a fixed byte buffer it yields a fixed sequence of tokens; modelled here
as that token list (each token paired with the `InputOffset` value after
consuming it) plus a terminal condition: either clean end of input
(`io.EOF`) or a latched syntax error, which `Token` then reports on every
further call, leaving `InputOffset` at the error position. -/

/-- One token from `json.Decoder.Token`: a structural delimiter
(`json.Delim`), a string, an integer-valued number, a float-valued number
(carrying its literal text), a boolean, or the null literal. -/
inductive Tok : Type where
  | lcurl : Tok
  | rcurl : Tok
  | lbrack : Tok
  | rbrack : Tok
  | str (s : String) : Tok
  | int (n : Int) : Tok
  | float (lit : String) : Tok
  | bool (b : Bool) : Tok
  | null : Tok
  deriving DecidableEq, Repr

/-- What the tokenizer does once its token list is exhausted. -/
inductive Term : Type where
  | eofTerm : Term
  | synTerm (off : Nat) : Term
  deriving DecidableEq, Repr

/-- Modelled from the spec: the external tokenizer's full output on one byte
buffer (spec section 6, "Collaborator: tokenizer"). -/
structure TokStream : Type where
  toks : List (Tok × Nat)
  term : Term
  deriving DecidableEq, Repr

/-- The Go errors `jsonDecoder.err` can hold: `io.EOF` or an underlying
tokenizer syntax error. -/
inductive GoErr : Type where
  | eofErr : GoErr
  | synErr : GoErr
  deriving DecidableEq, Repr

/-- Go `jsonDecoder` state: remaining tokenizer output, `currentToken`
(`none` models a nil `json.Token`), the current `InputOffset` value, and the
`err` field. -/
structure DState : Type where
  toks : List (Tok × Nat)
  term : Term
  cur : Option Tok
  lastOff : Nat
  derr : Option GoErr
  deriving DecidableEq, Repr

/-- One `d.decoder.Token()` call: the token (or `none` with an error), the
error, and the successor state.  A latched terminal repeats forever. -/
def tokNext (st : DState) : Option Tok × Option GoErr × DState :=
  match st.toks with
  | [] =>
    match st.term with
    | .eofTerm => (none, some .eofErr, st)
    | .synTerm off => (none, some .synErr, { st with lastOff := off })
  | (t, off) :: rest => (some t, none, { st with toks := rest, lastOff := off })

/-- Go `d.decoder.More()` for the array element loop: whether another
element (a token other than a closing delimiter) is next. -/
def more (st : DState) : Bool :=
  match st.toks with
  | [] => false
  | (t, _) :: _ => !(t == Tok.rbrack) && !(t == Tok.rcurl)

/-- Outcome of one modelled Go call: a value with the successor state, a
runtime panic (index out of range / failed type assertion), or exhausted
fuel (the Go loop did not finish within the given step budget). -/
inductive DRes (α : Type) : Type where
  | ok (a : α) (st : DState) : DRes α
  | panicked : DRes α
  | nofuel : DRes α

/-- Errors `JSONMapSlice.UnmarshalJSON` can return: the two
`fmt.Errorf` messages of the top-level delimiter check, or `d.err` (a
propagated tokenizer error). -/
inductive DecErr : Type where
  | expectedDelim : DecErr
  | expectedOpenBrace : DecErr
  | goErr (e : GoErr) : DecErr
  deriving DecidableEq, Repr

/-- Result of a whole `UnmarshalJSON` call on a fresh (zero-value, nil)
receiver: `ok none` means the receiver was left untouched (still the nil
slice), `ok (some es)` means it was assigned entries `es`. -/
inductive DecOut : Type where
  | ok (s : JSONMapSlice) : DecOut
  | fail (e : DecErr) : DecOut
  | panicked : DecOut
  | nofuel : DecOut

mutual
/-- Go `JSONMapSlice.JSONunmarshal`: the key/value scanning loop.  Breaks on
a `}` delimiter token or on `io.EOF`; any other token (or latched error,
with `currentToken` then nil) flows into `UnmarshalCustomJSON`, whose result
item — zero-valued if the pair was skipped — is appended to the result. -/
def JSONunmarshal (data : List Char) : Nat → DState → List JSONMapItem →
    DRes (List JSONMapItem)
  | 0, _, _ => .nofuel
  | fuel + 1, st, acc =>
    match tokNext st with
    | (some t, _, st') =>
      if t = .rcurl then .ok acc st'
      else
        match UnmarshalCustomJSON data fuel { st' with cur := some t } with
        | .ok mi st2 => JSONunmarshal data fuel st2 (acc ++ [mi])
        | .panicked => .panicked
        | .nofuel => .nofuel
    | (none, e, st') =>
      if e = some GoErr.eofErr then .ok acc st'
      else
        match UnmarshalCustomJSON data fuel { st' with cur := none } with
        | .ok mi st2 => JSONunmarshal data fuel st2 (acc ++ [mi])
        | .panicked => .panicked
        | .nofuel => .nofuel

/-- Go `JSONMapItem.UnmarshalCustomJSON`: probes the raw byte at
`InputOffset` — a panic if that offset is past the end of the buffer.  On a
colon it asserts `currentToken` is a string (panic otherwise), reads the
value token (a tokenizer error goes to `d.err`, leaving the item
zero-valued), classifies it with `asInterface`, and fills the item; on any
other byte it returns with the item still zero-valued. -/
def UnmarshalCustomJSON (data : List Char) : Nat → DState → DRes JSONMapItem
  | 0, _ => .nofuel
  | fuel + 1, st =>
    match data[st.lastOff]? with
    | none => .panicked
    | some c =>
      if c = ':' then
        match st.cur with
        | some (.str k) =>
          match tokNext st with
          | (_, some e, st') => .ok ("", .null) { st' with derr := some e }
          | (t, none, st') =>
            match asInterface data fuel { st' with cur := t } with
            | .ok v st2 => .ok (k, v) st2
            | .panicked => .panicked
            | .nofuel => .nofuel
        | _ => .panicked
      else .ok ("", .null) st

/-- Go `JSONMapItem.asInterface`: classify `currentToken`.  A `{` delimiter
decodes a nested object, `[` a nested array; strings pass through; an
integer token is re-rendered as decimal text and kept as an integer unless
that text contains a dot (`ParseFloat` branch, carrying the text); every
other token (floats, bools, null, nil, stray closing delimiters via the
switch fall-through) passes through as the underlying value or nil. -/
def asInterface (data : List Char) : Nat → DState → DRes JSONValue
  | 0, _ => .nofuel
  | fuel + 1, st =>
    match st.cur with
    | some .lcurl =>
      match JSONunmarshal data fuel st [] with
      | .ok es st' => .ok (.obj (some es)) st'
      | .panicked => .panicked
      | .nofuel => .nofuel
    | some .lbrack => arrLoop data fuel st []
    | some (.str s) => .ok (.str s) st
    | some (.int n) =>
      let strN := formatInt n
      if containsRune strN '.' then .ok (.float strN) st
      else .ok (.int (parseInt strN)) st
    | some (.float lit) => .ok (.float lit) st
    | some (.bool b) => .ok (.bool b) st
    | some .null => .ok .null st
    | some .rcurl => .ok .null st
    | some .rbrack => .ok .null st
    | none => .ok .null st

/-- The `[` branch of `asInterface`: while `More()`, read a token (an error
goes to `d.err` and returns nil) and classify it recursively; then advance
one token past the closing `]` (an error there likewise goes to `d.err` and
returns nil). -/
def arrLoop (data : List Char) : Nat → DState → List JSONValue → DRes JSONValue
  | 0, _, _ => .nofuel
  | fuel + 1, st, acc =>
    if more st then
      match tokNext st with
      | (_, some e, st') => .ok .null { st' with derr := some e }
      | (t, none, st') =>
        match asInterface data fuel { st' with cur := t } with
        | .ok v st2 => arrLoop data fuel st2 (acc ++ [v])
        | .panicked => .panicked
        | .nofuel => .nofuel
    else
      match tokNext st with
      | (_, some e, st') => .ok .null { st' with derr := some e }
      | (_, none, st') => .ok (.arr acc) st'
end

/-- Go `JSONMapSlice.UnmarshalJSON` on a fresh zero-value receiver: `io.EOF`
on the first token returns success with the receiver untouched (still nil);
a non-delimiter first token (including a nil token after a tokenizer error)
returns the "expected delimeter" error; a delimiter other than `{` returns
the "expected brace" error; otherwise the scanning loop runs and `d.err` is
returned (`ok` exactly when it stayed nil). -/
def UnmarshalJSON (data : List Char) (ts : TokStream) (fuel : Nat) : DecOut :=
  let st0 : DState :=
    { toks := ts.toks, term := ts.term, cur := none, lastOff := 0, derr := none }
  match tokNext st0 with
  | (some t, _, st') =>
    match t with
    | .lcurl =>
      match JSONunmarshal data fuel st' [] with
      | .ok es stF =>
        match stF.derr with
        | some e => .fail (.goErr e)
        | none => .ok (some es)
      | .panicked => .panicked
      | .nofuel => .nofuel
    | .rcurl => .fail .expectedOpenBrace
    | .lbrack => .fail .expectedOpenBrace
    | .rbrack => .fail .expectedOpenBrace
    | _ => .fail .expectedDelim
  | (none, e, _) =>
    if e = some GoErr.eofErr then .ok none
    else .fail .expectedDelim

/-! ## Derived definitions used by the statements -/

/-- A decoder state with given remaining tokens, current token and offset,
inheriting terminal and error from a base state. -/
def stWith (st : DState) (toks : List (Tok × Nat)) (c : Option Tok) (o : Nat) :
    DState :=
  { toks := toks, term := st.term, cur := c, lastOff := o, derr := st.derr }

/-- The two ways the scanning loop of `JSONunmarshal` stops: the next token
is the closing `\x7d` delimiter, or the stream has cleanly ended. -/
def stopOK (rest : List (Tok × Nat)) (term : Term)
    (restTail : List (Tok × Nat)) : Prop :=
  (∃ o, rest = (Tok.rcurl, o) :: restTail) ∨
    (rest = [] ∧ term = Term.eofTerm ∧ restTail = [])

mutual
/-- The value the decoder reconstructs for an encoded `JSONValue`: integers
survive the `FormatInt`/`ParseInt` round trip, a nil nested slice comes back
as JSON null, containers map recursively. -/
def decValue : JSONValue → JSONValue
  | .null => .null
  | .bool b => .bool b
  | .str s => .str s
  | .int n => .int n
  | .float l => .float l
  | .arr xs => .arr (decList xs)
  | .obj none => .null
  | .obj (some es) => .obj (some (decEntries es))

/-- Entrywise `decValue`. -/
def decEntries : List JSONMapItem → List JSONMapItem
  | [] => []
  | (k, v) :: es => (k, decValue v) :: decEntries es

/-- Elementwise `decValue`. -/
def decList : List JSONValue → List JSONValue
  | [] => []
  | x :: xs => decValue x :: decList xs
end

mutual
/-- Fuel bound: steps the modelled decoder needs for one value. -/
def fuelV : JSONValue → Nat
  | .arr xs => fuelA xs + 2
  | .obj (some es) => fuelE es + 2
  | _ => 1

/-- Fuel bound: steps the scanning loop needs for an entry list plus its
stop iteration. -/
def fuelE : List JSONMapItem → Nat
  | [] => 1
  | (_, v) :: es => fuelV v + fuelE es + 3

/-- Fuel bound: steps the array loop needs for an element list plus its
closing advance. -/
def fuelA : List JSONValue → Nat
  | [] => 1
  | x :: xs => fuelV x + fuelA xs + 2
end

/-- Keys whose raw bytes need no JSON string escaping: no quotation mark, no
backslash, no control character. -/
def keyOK (k : String) : Bool :=
  k.data.all fun c => !(c == '"') && !(c == '\\') && decide (32 ≤ c.toNat)

/-- Consume one or more decimal digits. -/
def chompDigits (l : List Char) : Option (List Char) :=
  if (l.takeWhile Char.isDigit).isEmpty then none
  else some (l.dropWhile Char.isDigit)

/-- Consume an optional fraction part. -/
def chompFrac : List Char → Option (List Char)
  | '.' :: r => chompDigits r
  | l => some l

/-- Consume an optional exponent part. -/
def chompExp : List Char → Option (List Char)
  | 'e' :: '+' :: r => chompDigits r
  | 'e' :: '-' :: r => chompDigits r
  | 'e' :: r => chompDigits r
  | 'E' :: '+' :: r => chompDigits r
  | 'E' :: '-' :: r => chompDigits r
  | 'E' :: r => chompDigits r
  | l => some l

/-- Shapes a float64 can render to: optional minus, digits, optional
fraction, optional exponent — one numeric token for the tokenizer. -/
def numLit (s : String) : Bool :=
  let l :=
    match s.data with
    | '-' :: r => r
    | r => r
  match chompDigits l with
  | none => false
  | some r =>
    match chompFrac r with
    | none => false
    | some r2 =>
      match chompExp r2 with
      | none => false
      | some r3 => r3.isEmpty

mutual
/-- Values whose Go representation the model captures exactly: int64-ranged
integers, float literals of numeric shape, and keys that the unescaping
`appendString` writer may legally emit raw. -/
def wfValue : JSONValue → Bool
  | .int n => decide (-(2 ^ 63) ≤ n ∧ n < 2 ^ 63)
  | .float l => numLit l
  | .arr xs => wfList xs
  | .obj (some es) => wfEntries es
  | _ => true

/-- Entrywise `wfValue` plus escape-free keys. -/
def wfEntries : List JSONMapItem → Bool
  | [] => true
  | (k, v) :: es => keyOK k && wfValue v && wfEntries es

/-- Elementwise `wfValue`. -/
def wfList : List JSONValue → Bool
  | [] => true
  | x :: xs => wfValue x && wfList xs
end

/-- The key order and entry count of a value at every nesting depth: leaves
collapse, arrays keep element shapes in order, objects keep the ordered key
list with each entry's shape. -/
inductive KeyTree : Type where
  | scalar : KeyTree
  | array (elems : List KeyTree) : KeyTree
  | object (entries : List (String × KeyTree)) : KeyTree

mutual
/-- `KeyTree` of a value. -/
def shapeOf : JSONValue → KeyTree
  | .arr xs => .array (shapeList xs)
  | .obj (some es) => .object (shapeEntries es)
  | _ => .scalar

/-- `KeyTree` entries of an entry list: keys in order, shapes of values. -/
def shapeEntries : List JSONMapItem → List (String × KeyTree)
  | [] => []
  | (k, v) :: es => (k, shapeOf v) :: shapeEntries es

/-- `KeyTree` list of an element list. -/
def shapeList : List JSONValue → List KeyTree
  | [] => []
  | x :: xs => shapeOf x :: shapeList xs
end

/-! ## The tokenizer's output on encoder output

Modelled from the spec (section 6): on a well-formed compact JSON buffer the
external tokenizer yields one token per lexical element, with `InputOffset`
after each token equal to the end position of its bytes.  The following
generators produce that sequence for the byte output of the marshaller,
threading byte positions exactly as the marshaller lays the bytes out. -/

mutual
/-- Tokens of one encoded value whose bytes start at position `p`. -/
def valueToks : JSONValue → Nat → List (Tok × Nat)
  | .null, p => [(.null, p + 4)]
  | .bool b, p => [(.bool b, p + (writeJSON (.bool b)).length)]
  | .str s, p => [(.str s, p + (writeJSONString s).length)]
  | .int n, p => [(.int n, p + (formatInt n).length)]
  | .float l, p => [(.float l, p + l.length)]
  | .obj s, p => sliceToksAt s p
  | .arr [], p => [(.lbrack, p + 1), (.rbrack, p + 2)]
  | .arr (x :: xs), p =>
    (.lbrack, p + 1) ::
      (valueToks x (p + 1) ++ arrRestToks xs (p + 1 + (writeJSON x).length)) ++
        [(.rbrack, p + (writeJSON (.arr (x :: xs))).length)]

/-- Tokens of an encoded `JSONMapSlice` whose bytes start at position `p`. -/
def sliceToksAt : JSONMapSlice → Nat → List (Tok × Nat)
  | none, p => [(.null, p + 4)]
  | some [], p => [(.lcurl, p + 1), (.rcurl, p + 2)]
  | some (e :: es), p =>
    (.lcurl, p + 1) ::
      (itemToks e (p + 1) ++ entriesRestToks es (p + 1 + (itemMarshal e).length)) ++
        [(.rcurl, p + (sliceMarshal (some (e :: es))).length)]

/-- Tokens of one encoded item whose bytes start at position `p`: the key
string token ends right before the colon byte. -/
def itemToks : JSONMapItem → Nat → List (Tok × Nat)
  | (k, v), p => (.str k, p + k.length + 2) :: valueToks v (p + k.length + 3)

/-- Tokens of the later, comma-preceded items whose bytes start at `p`. -/
def entriesRestToks : List JSONMapItem → Nat → List (Tok × Nat)
  | [], _ => []
  | e :: es, p => itemToks e (p + 1) ++ entriesRestToks es (p + 1 + (itemMarshal e).length)

/-- Tokens of the later, comma-preceded array elements starting at `p`. -/
def arrRestToks : List JSONValue → Nat → List (Tok × Nat)
  | [], _ => []
  | x :: xs, p => valueToks x (p + 1) ++ arrRestToks xs (p + 1 + (writeJSON x).length)
end

/-- Modelled from the spec: the tokenizer's full output on the marshaller's
byte output, ending in clean end-of-input. -/
def tokenize (s : JSONMapSlice) : TokStream := ⟨sliceToksAt s 0, .eofTerm⟩

/-- The bytes of an entry list as the marshaller writes them between the
braces (first item bare, later items comma-preceded). -/
def entriesBytes : List JSONMapItem → List Char
  | [] => []
  | e :: es => itemMarshal e ++ entriesRestBytes es

/-- The tokens of an entry list as laid out by `entriesBytes` starting at
position `p`. -/
def entriesToksAll : List JSONMapItem → Nat → List (Tok × Nat)
  | [], _ => []
  | e :: es, p => itemToks e p ++ entriesRestToks es (p + (itemMarshal e).length)

/-! ## Stream relations

A token list is related to a value when it is a plausible tokenization of
that value's encoding inside the byte buffer `data`: the structure of the
tokens mirrors the value, and the byte right after every object key token is
the colon the decoder probes. -/

mutual
/-- Token lists that decode to (the `decValue` of) a given value. -/
inductive VStream (data : List Char) : JSONValue → List (Tok × Nat) → Prop where
  | vnull (o : Nat) : VStream data .null [(.null, o)]
  | vobjNil (o : Nat) : VStream data (.obj none) [(.null, o)]
  | vbool (b : Bool) (o : Nat) : VStream data (.bool b) [(.bool b, o)]
  | vstr (s : String) (o : Nat) : VStream data (.str s) [(.str s, o)]
  | vint (n : Int) (o : Nat) : VStream data (.int n) [(.int n, o)]
  | vfloat (l : String) (o : Nat) : VStream data (.float l) [(.float l, o)]
  | vobj (es : List JSONMapItem) (ts : List (Tok × Nat)) (o o2 : Nat) :
    EStream data es ts →
    VStream data (.obj (some es)) ((.lcurl, o) :: ts ++ [(.rcurl, o2)])
  | varr (xs : List JSONValue) (ts : List (Tok × Nat)) (o o2 : Nat) :
    AStream data xs ts →
    VStream data (.arr xs) ((.lbrack, o) :: ts ++ [(.rbrack, o2)])

/-- Token lists of the key/value pairs of an object level; each key token's
end offset lands on a colon byte of `data`. -/
inductive EStream (data : List Char) : List JSONMapItem → List (Tok × Nat) → Prop where
  | enil : EStream data [] []
  | econs (k : String) (v : JSONValue) (es : List JSONMapItem) (o : Nat)
    (tv ts : List (Tok × Nat)) :
    data[o]? = some ':' → VStream data v tv → EStream data es ts →
    EStream data ((k, v) :: es) ((.str k, o) :: (tv ++ ts))

/-- Token lists of the elements of an array. -/
inductive AStream (data : List Char) : List JSONValue → List (Tok × Nat) → Prop where
  | anil : AStream data [] []
  | acons (x : JSONValue) (xs : List JSONValue) (tv ts : List (Tok × Nat)) :
    VStream data x tv → AStream data xs ts → AStream data (x :: xs) (tv ++ ts)
end

/-- Simulation statement for `asInterface`: called with the first token of a
related stream as `currentToken` and the remainder in front of `rest`, it
returns the decoded value and stops exactly at `rest`. -/
def PvStmt (data : List Char) (fuel : Nat) : Prop :=
  ∀ v t o tv rest st, VStream data v ((t, o) :: tv) → wfValue v = true →
    st.cur = some t → st.toks = tv ++ rest → fuelV v ≤ fuel →
    ∃ c o2, asInterface data fuel st = .ok (decValue v) (stWith st rest c o2)

/-- Simulation statement for the `JSONunmarshal` scanning loop. -/
def PeStmt (data : List Char) (fuel : Nat) : Prop :=
  ∀ es ts rest restTail st acc, EStream data es ts → wfEntries es = true →
    st.toks = ts ++ rest → stopOK rest st.term restTail → fuelE es ≤ fuel →
    ∃ c o2, JSONunmarshal data fuel st acc =
      .ok (acc ++ decEntries es) (stWith st restTail c o2)

/-- Simulation statement for the array element loop of `asInterface`. -/
def PaStmt (data : List Char) (fuel : Nat) : Prop :=
  ∀ xs ts o2 rest st acc, AStream data xs ts → wfList xs = true →
    st.toks = ts ++ ((Tok.rbrack, o2) :: rest) → fuelA xs ≤ fuel →
    ∃ c o3, arrLoop data fuel st acc =
      .ok (.arr (acc ++ decList xs)) (stWith st rest c o3)

/-! ## Concrete inputs for the counterexamples and bug witnesses -/

/-- A key containing a quotation mark: `a"b`. -/
def badKey : String := "a\"b"

/-- A key whose raw bytes re-parse as different JSON structure:
the ten characters of `a":null,"b`. -/
def cexKey : String := "a\":null,\"b"

/-- One entry with key `cexKey`: its compact encoding is the byte-identical
text of a two-entry object. -/
def cexSlice : JSONMapSlice := some [(cexKey, JSONValue.null)]

/-- The 19 bytes the encoder emits for `cexSlice` — valid JSON text
declaring two entries keyed `a` and `b`. -/
def cexData : List Char :=
  lbraceC :: '"' :: 'a' :: '"' :: ':' :: 'n' :: 'u' :: 'l' :: 'l' :: ',' ::
    '"' :: 'b' :: '"' :: ':' :: 'n' :: 'u' :: 'l' :: 'l' :: [rbraceC]

/-- Modelled from the spec: the tokenizer's output on `cexData` (keys `a`
and `b`, colons at offsets 4 and 13). -/
def cexStream : TokStream :=
  ⟨[(.lcurl, 1), (.str "a", 4), (.null, 9), (.str "b", 13), (.null, 18),
    (.rcurl, 19)], .eofTerm⟩

/-- The 7 bytes of a truncated object with malformed value: open brace,
quoted key `a`, colon, letter x, close brace. -/
def synData : List Char := lbraceC :: '"' :: 'a' :: '"' :: ':' :: 'x' :: [rbraceC]

/-- Modelled from the spec: the tokenizer errors at the letter x (offset 5)
and latches that syntax error after yielding the brace and key tokens. -/
def synStream : TokStream := ⟨[(.lcurl, 1), (.str "a", 4)], .synTerm 5⟩

/-- The 9 bytes of an object whose colon is preceded by a space:
open brace, quoted key `a`, space, colon, space, 1, close brace. -/
def skipData : List Char :=
  lbraceC :: '"' :: 'a' :: '"' :: ' ' :: ':' :: ' ' :: '1' :: [rbraceC]

/-- Modelled from the spec: tokenizer output on `skipData` (the key token
ends at offset 4, where the buffer holds a space). -/
def skipStream : TokStream :=
  ⟨[(.lcurl, 1), (.str "a", 4), (.int 1, 8), (.rcurl, 9)], .eofTerm⟩

/-- The 5 bytes of an object truncated right after its first colon. -/
def truncData : List Char := lbraceC :: '"' :: 'a' :: '"' :: [':']

/-- Modelled from the spec: tokenizer output on `truncData`, ending cleanly
before any value token. -/
def truncStream : TokStream := ⟨[(.lcurl, 1), (.str "a", 4)], .eofTerm⟩

/-- The 4 bytes of an object truncated right after its first key. -/
def panicData : List Char := lbraceC :: '"' :: 'a' :: ['"']

/-- Modelled from the spec: tokenizer output on `panicData`; the key token
ends at offset 4, one past the end of the 4-byte buffer. -/
def panicStream : TokStream := ⟨[(.lcurl, 1), (.str "a", 4)], .eofTerm⟩

/-! ## Lemmas: decimal text of integers -/

theorem string_data_length (s : String) : s.length = s.data.length := rfl

theorem digitChr_toNat (d : Nat) (h : d < 10) : (digitChr d).toNat = 48 + d := by
  interval_cases d <;> decide

theorem natDigits_digits (n : Nat) :
    ∀ c ∈ natDigits n, 48 ≤ c.toNat ∧ c.toNat ≤ 57 := by
  induction n using Nat.strong_induction_on with
  | _ n ih =>
    intro c hc
    rw [natDigits] at hc
    split at hc
    · next h =>
      rw [List.mem_singleton] at hc
      subst hc
      rw [digitChr_toNat n h]
      omega
    · next h =>
      rw [List.mem_append] at hc
      rcases hc with hc | hc
      · exact ih (n / 10) (Nat.div_lt_self (by omega) (by omega)) c hc
      · rw [List.mem_singleton] at hc
        subst hc
        rw [digitChr_toNat (n % 10) (Nat.mod_lt _ (by omega))]
        omega

theorem natDigits_ne_nil (n : Nat) : natDigits n ≠ [] := by
  rw [natDigits]
  split <;> simp

theorem parseDigits_append_one (l : List Char) (c : Char) :
    parseDigits (l ++ [c]) = parseDigits l * 10 + (c.toNat - 48) := by
  simp [parseDigits, List.foldl_append]

theorem parseDigits_natDigits (n : Nat) : parseDigits (natDigits n) = n := by
  induction n using Nat.strong_induction_on with
  | _ n ih =>
    rw [natDigits]
    split
    · next h =>
      simp [parseDigits, digitChr_toNat n h]
    · next h =>
      rw [parseDigits_append_one, ih (n / 10) (Nat.div_lt_self (by omega) (by omega)),
        digitChr_toNat (n % 10) (Nat.mod_lt _ (by omega))]
      omega

theorem mem_formatInt_digit_or_minus (n : Int) (c : Char)
    (hc : c ∈ (formatInt n).data) : c = '-' ∨ (48 ≤ c.toNat ∧ c.toNat ≤ 57) := by
  unfold formatInt at hc
  split at hc
  · simp only [List.mem_cons] at hc
    rcases hc with hc | hc
    · exact Or.inl hc
    · exact Or.inr (natDigits_digits _ c hc)
  · exact Or.inr (natDigits_digits _ c hc)

theorem formatInt_no_dot (n : Int) : containsRune (formatInt n) '.' = false := by
  rw [containsRune, Bool.eq_false_iff]
  intro hc
  rw [List.contains_eq_any_beq, List.any_eq_true] at hc
  obtain ⟨c, hc, he⟩ := hc
  rw [beq_iff_eq] at he
  subst he
  rcases mem_formatInt_digit_or_minus n _ hc with h | h
  · exact absurd h (by decide)
  · exact absurd h (by decide)

theorem parseInt_formatInt (n : Int) (h1 : -(2 ^ 63) ≤ n) (h2 : n < 2 ^ 63) :
    parseInt (formatInt n) = n := by
  by_cases hn : n < 0
  · have hd : (formatInt n).data = '-' :: natDigits n.natAbs := by
      simp [formatInt, hn]
    unfold parseInt
    split
    · next ds heq =>
      rw [hd] at heq
      injection heq with h3 h4
      subst h4
      rw [parseDigits_natDigits]
      have hab : (n.natAbs : Int) ≤ 2 ^ 63 := by omega
      rw [if_neg (by omega)]
      omega
    · next heq =>
      exact absurd hd (by intro h; exact heq (natDigits n.natAbs) h)
  · have hd : (formatInt n).data = natDigits n.natAbs := by
      simp [formatInt, hn]
    unfold parseInt
    split
    · next ds heq =>
      rw [hd] at heq
      have hmem : '-' ∈ natDigits n.natAbs := by
        rw [heq]; exact List.mem_cons_self _ _
      have := natDigits_digits n.natAbs '-' hmem
      exact absurd this (by decide)
    · next heq =>
      rw [hd, parseDigits_natDigits]
      rw [if_neg (by omega)]
      omega

/-! ## Lemmas: fuel bounds are positive -/

theorem fuelV_pos (v : JSONValue) : 1 ≤ fuelV v := by
  cases v with
  | arr xs => simp [fuelV]
  | obj s => cases s <;> simp [fuelV]
  | _ => simp [fuelV]

theorem fuelE_pos (es : List JSONMapItem) : 1 ≤ fuelE es := by
  cases es with
  | nil => simp [fuelE]
  | cons e es => obtain ⟨k, v⟩ := e; simp [fuelE]

theorem fuelA_pos (xs : List JSONValue) : 1 ≤ fuelA xs := by
  cases xs with
  | nil => simp [fuelA]
  | cons x xs => simp [fuelA]

/-! ## Lemmas: byte layout of the marshaller -/

theorem itemMarshal_eq (k : String) (v : JSONValue) :
    itemMarshal (k, v) = '"' :: (k.data ++ ('"' :: ':' :: writeJSON v)) := by
  simp [itemMarshal, appendByteSlice, appendRawByte, appendString]

theorem colon_at (pre ks tail0 : List Char) :
    (pre ++ ('"' :: (ks ++ ('"' :: ':' :: tail0))))[pre.length + ks.length + 2]? =
      some ':' := by
  rw [List.getElem?_append_right (by omega)]
  have h1 : pre.length + ks.length + 2 - pre.length = ks.length + 1 + 1 := by omega
  rw [h1, List.getElem?_cons_succ]
  rw [List.getElem?_append_right (by omega)]
  have h2 : ks.length + 1 - ks.length = 1 := by omega
  rw [h2]
  simp

/-! ## Lemmas: heads of related streams -/

theorem vstream_head {data : List Char} {v : JSONValue} {tv : List (Tok × Nat)}
    (h : VStream data v tv) :
    ∃ t o tvr, tv = (t, o) :: tvr ∧ t ≠ Tok.rbrack ∧ t ≠ Tok.rcurl := by
  cases h with
  | vnull o => exact ⟨Tok.null, o, [], rfl, by simp, by simp⟩
  | vobjNil o => exact ⟨Tok.null, o, [], rfl, by simp, by simp⟩
  | vbool b o => exact ⟨Tok.bool b, o, [], rfl, by simp, by simp⟩
  | vstr s o => exact ⟨Tok.str s, o, [], rfl, by simp, by simp⟩
  | vint n o => exact ⟨Tok.int n, o, [], rfl, by simp, by simp⟩
  | vfloat l o => exact ⟨Tok.float l, o, [], rfl, by simp, by simp⟩
  | vobj es ts o o2 hes =>
    exact ⟨Tok.lcurl, o, ts ++ [(Tok.rcurl, o2)], by simp, by simp, by simp⟩
  | varr xs ts o o2 hxs =>
    exact ⟨Tok.lbrack, o, ts ++ [(Tok.rbrack, o2)], by simp, by simp, by simp⟩

/-! ## Lemmas: the generated token streams are related streams

The marshaller's byte output contains a colon right after every key's
closing quotation mark, so the generated token stream (whose key tokens end
exactly there) satisfies the stream relations over that byte buffer. -/

mutual
theorem vstream_gen : ∀ (v : JSONValue) (data pre suf : List Char),
    data = pre ++ (writeJSON v ++ suf) → VStream data v (valueToks v pre.length)
  | .null, data, pre, suf, hd => by
    simpa [valueToks] using @VStream.vnull data (pre.length + 4)
  | .bool b, data, pre, suf, hd => by
    simpa [valueToks] using
      @VStream.vbool data b (pre.length + (writeJSON (.bool b)).length)
  | .str s, data, pre, suf, hd => by
    simpa [valueToks] using
      @VStream.vstr data s (pre.length + (writeJSONString s).length)
  | .int n, data, pre, suf, hd => by
    simpa [valueToks] using
      @VStream.vint data n (pre.length + (formatInt n).length)
  | .float l, data, pre, suf, hd => by
    simpa [valueToks] using
      @VStream.vfloat data l (pre.length + l.length)
  | .obj s, data, pre, suf, hd => by
    have h := slicestream_gen s data pre suf (by simpa [writeJSON] using hd)
    simpa [valueToks] using h
  | .arr [], data, pre, suf, hd => by
    simpa [valueToks] using
      @VStream.varr data [] [] (pre.length + 1) (pre.length + 2)
        AStream.anil
  | .arr (x :: xs), data, pre, suf, hd => by
    have hx := vstream_gen x data (pre ++ ['[']) (arrRestBytes xs ++ (']' :: suf))
      (by rw [hd]; simp [writeJSON, List.append_assoc])
    have e1 : (pre ++ ['[']).length = pre.length + 1 := by simp
    rw [e1] at hx
    have ha := astream_rest_gen xs data (pre ++ ('[' :: writeJSON x)) (']' :: suf)
      (by rw [hd]; simp [writeJSON, List.append_assoc])
    have e2 : (pre ++ ('[' :: writeJSON x)).length =
        pre.length + 1 + (writeJSON x).length := by
      simp
      omega
    rw [e2] at ha
    simpa [valueToks] using
      @VStream.varr data (x :: xs) _ (pre.length + 1)
        (pre.length + (writeJSON (.arr (x :: xs))).length)
        (AStream.acons x xs _ _ hx ha)
termination_by v _ _ _ _ => sizeOf v
decreasing_by all_goals (simp_wf <;> omega)

theorem slicestream_gen : ∀ (s : JSONMapSlice) (data pre suf : List Char),
    data = pre ++ (sliceMarshal s ++ suf) →
    VStream data (.obj s) (sliceToksAt s pre.length)
  | none, data, pre, suf, hd => by
    simpa [sliceToksAt] using @VStream.vobjNil data (pre.length + 4)
  | some [], data, pre, suf, hd => by
    simpa [sliceToksAt] using
      @VStream.vobj data [] [] (pre.length + 1) (pre.length + 2)
        EStream.enil
  | some ((k, v) :: es), data, pre, suf, hd => by
    have he := estream_gen k v es data (pre ++ [lbraceC]) ([rbraceC] ++ suf)
      (by rw [hd]; simp [sliceMarshal, List.append_assoc])
    have e1 : (pre ++ [lbraceC]).length = pre.length + 1 := by simp
    rw [e1] at he
    simpa [sliceToksAt] using
      @VStream.vobj data ((k, v) :: es) _ (pre.length + 1)
        (pre.length + (sliceMarshal (some ((k, v) :: es))).length) he
termination_by s _ _ _ _ => sizeOf s
decreasing_by all_goals (simp_wf <;> omega)

theorem estream_gen : ∀ (k : String) (v : JSONValue) (es : List JSONMapItem)
    (data pre suf : List Char),
    data = pre ++ (itemMarshal (k, v) ++ (entriesRestBytes es ++ suf)) →
    EStream data ((k, v) :: es)
      (itemToks (k, v) pre.length ++
        entriesRestToks es (pre.length + (itemMarshal (k, v)).length))
  | k, v, es, data, pre, suf, hd => by
    have hd2 : data =
        pre ++ ('"' :: (k.data ++
          ('"' :: ':' :: (writeJSON v ++ (entriesRestBytes es ++ suf))))) := by
      rw [hd]; simp [itemMarshal_eq, List.append_assoc]
    have hv := vstream_gen v data (pre ++ ('"' :: (k.data ++ ['"', ':'])))
      (entriesRestBytes es ++ suf) (by rw [hd2]; simp [List.append_assoc])
    have e1 : (pre ++ ('"' :: (k.data ++ ['"', ':']))).length =
        pre.length + k.length + 3 := by
      simp
      omega
    rw [e1] at hv
    have he := estream_rest_gen es data (pre ++ itemMarshal (k, v)) suf
      (by rw [hd]; simp [List.append_assoc])
    have e2 : (pre ++ itemMarshal (k, v)).length =
        pre.length + (itemMarshal (k, v)).length := by simp
    rw [e2] at he
    have hcolon : data[pre.length + k.length + 2]? = some ':' := by
      rw [hd2]
      simpa using
        colon_at pre k.data (writeJSON v ++ (entriesRestBytes es ++ suf))
    simpa [itemToks] using EStream.econs k v es _ _ _ hcolon hv he
termination_by k v es _ _ _ _ => sizeOf v + sizeOf es + 1
decreasing_by all_goals (simp_wf <;> omega)

theorem estream_rest_gen : ∀ (es : List JSONMapItem) (data pre suf : List Char),
    data = pre ++ (entriesRestBytes es ++ suf) →
    EStream data es (entriesRestToks es pre.length)
  | [], data, pre, suf, hd => by
    simpa [entriesRestToks] using @EStream.enil data
  | (k, v) :: es, data, pre, suf, hd => by
    have he := estream_gen k v es data (pre ++ [',']) suf
      (by rw [hd]; simp [entriesRestBytes, List.append_assoc])
    have e1 : (pre ++ [',']).length = pre.length + 1 := by simp
    rw [e1] at he
    simpa [entriesRestToks] using he
termination_by es _ _ _ _ => sizeOf es
decreasing_by all_goals (simp_wf <;> omega)

theorem astream_rest_gen : ∀ (xs : List JSONValue) (data pre suf : List Char),
    data = pre ++ (arrRestBytes xs ++ suf) →
    AStream data xs (arrRestToks xs pre.length)
  | [], data, pre, suf, hd => by
    simpa [arrRestToks] using @AStream.anil data
  | x :: xs, data, pre, suf, hd => by
    have hx := vstream_gen x data (pre ++ [',']) (arrRestBytes xs ++ suf)
      (by rw [hd]; simp [arrRestBytes, List.append_assoc])
    have e1 : (pre ++ [',']).length = pre.length + 1 := by simp
    rw [e1] at hx
    have ha := astream_rest_gen xs data (pre ++ (',' :: writeJSON x)) suf
      (by rw [hd]; simp [arrRestBytes, List.append_assoc])
    have e2 : (pre ++ (',' :: writeJSON x)).length =
        pre.length + 1 + (writeJSON x).length := by
      simp
      omega
    rw [e2] at ha
    simpa [arrRestToks] using AStream.acons x xs _ _ hx ha
termination_by xs _ _ _ _ => sizeOf xs
decreasing_by all_goals (simp_wf <;> omega)
end

/-! ## The decoder simulation

By strong induction on fuel: on a related stream with valid colon probes the
three mutually recursive decoding loops reproduce `decValue`/`decEntries`
and stop exactly where the related tokens end. -/

theorem decode_sim (data : List Char) :
    ∀ fuel, PvStmt data fuel ∧ PeStmt data fuel ∧ PaStmt data fuel := by
  intro fuel
  induction fuel using Nat.strong_induction_on with
  | _ fuel IH =>
    refine ⟨?_, ?_, ?_⟩
    · -- asInterface
      intro v t o tv rest st hvs hwf hcur htoks hfuel
      obtain ⟨f, rfl⟩ : ∃ f, fuel = f + 1 :=
        ⟨fuel - 1, by have := fuelV_pos v; omega⟩
      obtain ⟨stoks, sterm, scur, soff, sderr⟩ := st
      simp only at hcur htoks
      subst hcur htoks
      cases hvs with
      | vnull o1 =>
        exact ⟨some Tok.null, soff, by simp [asInterface, decValue, stWith]⟩
      | vobjNil o1 =>
        exact ⟨some Tok.null, soff, by simp [asInterface, decValue, stWith]⟩
      | vbool b o1 =>
        exact ⟨some (Tok.bool b), soff, by simp [asInterface, decValue, stWith]⟩
      | vstr s o1 =>
        exact ⟨some (Tok.str s), soff, by simp [asInterface, decValue, stWith]⟩
      | vfloat l o1 =>
        exact ⟨some (Tok.float l), soff, by simp [asInterface, decValue, stWith]⟩
      | vint n o1 =>
        refine ⟨some (Tok.int n), soff, ?_⟩
        simp only [wfValue, decide_eq_true_eq] at hwf
        simp [asInterface, formatInt_no_dot, parseInt_formatInt n hwf.1 hwf.2,
          decValue, stWith]
      | vobj es ts o1 o2 hes =>
        simp only [wfValue] at hwf
        have hPe := (IH f (by omega)).2.1 es ts ((Tok.rcurl, o2) :: rest) rest
          ⟨ts ++ ((Tok.rcurl, o2) :: rest), sterm, some Tok.lcurl, soff, sderr⟩
          [] hes hwf rfl (Or.inl ⟨o2, rfl⟩)
          (by simp only [fuelV] at hfuel; omega)
        obtain ⟨c, o3, heq⟩ := hPe
        refine ⟨c, o3, ?_⟩
        simp [asInterface, heq, decValue, stWith]
      | varr xs ts o1 o2 hxs =>
        simp only [wfValue] at hwf
        have hPa := (IH f (by omega)).2.2 xs ts o2 rest
          ⟨ts ++ ((Tok.rbrack, o2) :: rest), sterm, some Tok.lbrack, soff, sderr⟩
          [] hxs hwf rfl (by simp only [fuelV] at hfuel; omega)
        obtain ⟨c, o3, heq⟩ := hPa
        refine ⟨c, o3, ?_⟩
        simp [asInterface, heq, decValue, stWith]
    · -- JSONunmarshal
      intro es ts rest restTail st acc hes hwf htoks hstop hfuel
      obtain ⟨f, rfl⟩ : ∃ f, fuel = f + 1 :=
        ⟨fuel - 1, by have := fuelE_pos es; omega⟩
      obtain ⟨stoks, sterm, scur, soff, sderr⟩ := st
      simp only at htoks
      subst htoks
      cases hes with
      | enil =>
        rcases hstop with ⟨o1, hrest⟩ | ⟨hrest, hterm, hrt⟩
        · subst hrest
          exact ⟨scur, o1, by simp [JSONunmarshal, tokNext, stWith, decEntries]⟩
        · simp only at hterm
          subst hrest hterm hrt
          exact ⟨scur, soff, by simp [JSONunmarshal, tokNext, stWith, decEntries]⟩
      | econs k v es' o1 tv ts' hcolon hv hes' =>
        have hfv := fuelV_pos v
        have hfe := fuelE_pos es'
        simp only [fuelE] at hfuel
        obtain ⟨g, rfl⟩ : ∃ g, f = g + 1 := ⟨f - 1, by omega⟩
        simp only [wfEntries, Bool.and_eq_true] at hwf
        obtain ⟨⟨hk, hwv⟩, hwes⟩ := hwf
        obtain ⟨t0, o0, tvr, htv, hnb, hnc⟩ := vstream_head hv
        subst htv
        have hPv := (IH g (by omega)).1 v t0 o0 tvr (ts' ++ rest)
          ⟨tvr ++ (ts' ++ rest), sterm, some t0, o0, sderr⟩
          hv hwv rfl rfl (by omega)
        obtain ⟨c, o3, hV⟩ := hPv
        have hUCJ : UnmarshalCustomJSON data (g + 1)
            ⟨(t0, o0) :: (tvr ++ (ts' ++ rest)), sterm, some (Tok.str k), o1,
              sderr⟩ =
            DRes.ok (k, decValue v) ⟨ts' ++ rest, sterm, c, o3, sderr⟩ := by
          simp [UnmarshalCustomJSON, tokNext, hcolon, hV, stWith]
        have hPe := (IH (g + 1) (by omega)).2.1 es' ts' rest restTail
          ⟨ts' ++ rest, sterm, c, o3, sderr⟩ (acc ++ [(k, decValue v)])
          hes' hwes rfl hstop (by omega)
        obtain ⟨c2, o4, hrec⟩ := hPe
        refine ⟨c2, o4, ?_⟩
        rw [JSONunmarshal]
        simp [tokNext, List.append_assoc, hUCJ, hrec, stWith, decEntries]
    · -- arrLoop
      intro xs ts o2 rest st acc hxs hwf htoks hfuel
      obtain ⟨f, rfl⟩ : ∃ f, fuel = f + 1 :=
        ⟨fuel - 1, by have := fuelA_pos xs; omega⟩
      obtain ⟨stoks, sterm, scur, soff, sderr⟩ := st
      simp only at htoks
      subst htoks
      cases hxs with
      | anil =>
        exact ⟨scur, o2, by simp [arrLoop, more, tokNext, stWith, decList]⟩
      | acons x xs' tv ts' hx hxs' =>
        have hfv := fuelV_pos x
        have hfa := fuelA_pos xs'
        simp only [fuelA] at hfuel
        simp only [wfList, Bool.and_eq_true] at hwf
        obtain ⟨hwx, hwxs⟩ := hwf
        obtain ⟨t0, o0, tvr, htv, hnb, hnc⟩ := vstream_head hx
        subst htv
        have hPv := (IH f (by omega)).1 x t0 o0 tvr (ts' ++ ((Tok.rbrack, o2) :: rest))
          ⟨tvr ++ (ts' ++ ((Tok.rbrack, o2) :: rest)), sterm, some t0, o0, sderr⟩
          hx hwx rfl (by simp) (by omega)
        obtain ⟨c, o3, hV⟩ := hPv
        have hPa := (IH f (by omega)).2.2 xs' ts' o2 rest
          ⟨ts' ++ ((Tok.rbrack, o2) :: rest), sterm, c, o3, sderr⟩
          (acc ++ [decValue x]) hxs' hwxs rfl (by omega)
        obtain ⟨c2, o4, hrec⟩ := hPa
        refine ⟨c2, o4, ?_⟩
        simp [arrLoop, more, tokNext, hnb, hnc, stWith, List.append_assoc,
          hV, hrec, decList]

/-! ## Shape preservation -/

mutual
theorem shapeOf_decValue : ∀ v : JSONValue, shapeOf (decValue v) = shapeOf v
  | .null => rfl
  | .bool _ => rfl
  | .str _ => rfl
  | .int _ => rfl
  | .float _ => rfl
  | .arr xs => by simp [decValue, shapeOf, shapeList_decList xs]
  | .obj none => rfl
  | .obj (some es) => by simp [decValue, shapeOf, shapeEntries_decEntries es]
termination_by v => sizeOf v
decreasing_by all_goals (simp_wf <;> omega)

theorem shapeEntries_decEntries :
    ∀ es : List JSONMapItem, shapeEntries (decEntries es) = shapeEntries es
  | [] => rfl
  | (k, v) :: es => by
    simp [decEntries, shapeEntries, shapeOf_decValue v, shapeEntries_decEntries es]
termination_by es => sizeOf es
decreasing_by all_goals (simp_wf <;> omega)

theorem shapeList_decList :
    ∀ xs : List JSONValue, shapeList (decList xs) = shapeList xs
  | [] => rfl
  | x :: xs => by simp [decList, shapeList, shapeOf_decValue x, shapeList_decList xs]
termination_by xs => sizeOf xs
decreasing_by all_goals (simp_wf <;> omega)
end

theorem decEntries_length :
    ∀ es : List JSONMapItem, (decEntries es).length = es.length
  | [] => rfl
  | (k, v) :: es => by simp [decEntries, decEntries_length es]

/-! ## The latched-error loop never terminates -/

theorem syn_loop_diverges :
    ∀ (fuel : Nat) (acc : List JSONMapItem) (c0 : Option Tok) (o0 : Nat)
      (d0 : Option GoErr),
      JSONunmarshal synData fuel ⟨[], Term.synTerm 5, c0, o0, d0⟩ acc =
        DRes.nofuel := by
  intro fuel
  induction fuel with
  | zero => intro acc c0 o0 d0; rfl
  | succ f ih =>
    intro acc c0 o0 d0
    rw [JSONunmarshal]
    have hx : synData[5]? = some 'x' := rfl
    cases f with
    | zero => simp [tokNext, UnmarshalCustomJSON]
    | succ g =>
      simp [tokNext, UnmarshalCustomJSON, hx, ih]

/-! ## Claim theorems -/

/-- C1 (counterexample): the round trip fails as universally stated.  The
one-entry object whose key is the raw text `a":null,"b` encodes to the valid
JSON bytes of a two-entry object, so decoding the encoder's output yields an
OrderedObject with two entries instead of one — the entry count at depth 0
is not preserved. -/
theorem roundtrip_fails_on_quoted_key :
    sliceMarshal cexSlice = cexData ∧
    UnmarshalJSON cexData cexStream 20 =
      DecOut.ok (some [("a", JSONValue.null), ("b", JSONValue.null)]) ∧
    ([("a", JSONValue.null), ("b", JSONValue.null)] : List JSONMapItem).length ≠
      ([(cexKey, JSONValue.null)] : List JSONMapItem).length := by
  refine ⟨?_, rfl, by decide⟩
  simp [cexSlice, cexKey, cexData, sliceMarshal, itemMarshal, entriesRestBytes,
    appendByteSlice, appendRawByte, appendString, writeJSON, lbraceC, rbraceC]

/-- C1 (amended): for every OrderedObject built from the value model whose
keys (at every depth) contain no characters requiring JSON string escaping,
decoding the encoder's output over the tokenizer's token stream succeeds and
yields an OrderedObject with the same key order and the same entry count at
every nesting depth. -/
theorem decode_encode_roundtrip (es : List JSONMapItem)
    (hwf : wfEntries es = true) :
    UnmarshalJSON (sliceMarshal (some es)) (tokenize (some es)) (fuelE es + 1) =
      DecOut.ok (some (decEntries es)) ∧
    shapeEntries (decEntries es) = shapeEntries es ∧
    (decEntries es).length = es.length := by
  refine ⟨?_, shapeEntries_decEntries es, decEntries_length es⟩
  cases es with
  | nil => rfl
  | cons e es' =>
    obtain ⟨k, v⟩ := e
    have hes := estream_gen k v es' (sliceMarshal (some ((k, v) :: es')))
      [lbraceC] [rbraceC] (by simp [sliceMarshal, List.append_assoc])
    simp only [List.length_cons, List.length_nil] at hes
    have hPe := (decode_sim (sliceMarshal (some ((k, v) :: es')))
        (fuelE ((k, v) :: es') + 1)).2.1 ((k, v) :: es')
      (itemToks (k, v) 1 ++
        entriesRestToks es' (1 + (itemMarshal (k, v)).length))
      [(Tok.rcurl, (sliceMarshal (some ((k, v) :: es'))).length)] []
      ⟨itemToks (k, v) 1 ++
        (entriesRestToks es' (1 + (itemMarshal (k, v)).length) ++
          [(Tok.rcurl, (sliceMarshal (some ((k, v) :: es'))).length)]),
        Term.eofTerm, none, 1, none⟩
      [] hes hwf (by simp) (Or.inl ⟨_, rfl⟩) (by omega)
    obtain ⟨c, o2, heq⟩ := hPe
    unfold UnmarshalJSON
    simp [tokenize, sliceToksAt, tokNext, List.append_assoc, heq, stWith]

/-- C1 (witness at the spec's nesting example). -/
theorem decode_encode_roundtrip_witness :
    wfEntries [("b", JSONValue.int 1),
      ("a", JSONValue.obj (some [("y", JSONValue.int 2),
        ("x", JSONValue.int 3)]))] = true ∧
    (UnmarshalJSON
        (sliceMarshal (some [("b", JSONValue.int 1),
          ("a", JSONValue.obj (some [("y", JSONValue.int 2),
            ("x", JSONValue.int 3)]))]))
        (tokenize (some [("b", JSONValue.int 1),
          ("a", JSONValue.obj (some [("y", JSONValue.int 2),
            ("x", JSONValue.int 3)]))]))
        (fuelE [("b", JSONValue.int 1),
          ("a", JSONValue.obj (some [("y", JSONValue.int 2),
            ("x", JSONValue.int 3)]))] + 1) =
        DecOut.ok (some (decEntries [("b", JSONValue.int 1),
          ("a", JSONValue.obj (some [("y", JSONValue.int 2),
            ("x", JSONValue.int 3)]))])) ∧
      shapeEntries (decEntries [("b", JSONValue.int 1),
        ("a", JSONValue.obj (some [("y", JSONValue.int 2),
          ("x", JSONValue.int 3)]))]) =
        shapeEntries [("b", JSONValue.int 1),
          ("a", JSONValue.obj (some [("y", JSONValue.int 2),
            ("x", JSONValue.int 3)]))] ∧
      (decEntries [("b", JSONValue.int 1),
        ("a", JSONValue.obj (some [("y", JSONValue.int 2),
          ("x", JSONValue.int 3)]))]).length =
        ([("b", JSONValue.int 1),
          ("a", JSONValue.obj (some [("y", JSONValue.int 2),
            ("x", JSONValue.int 3)]))] : List JSONMapItem).length) :=
  ⟨by decide, decode_encode_roundtrip _ (by decide)⟩

/-- C2: on an integer-valued numeric token the decoder re-renders the
integer as decimal text, finds no fractional separator in it (the re-render
never contains one), re-parses it and keeps the `Integer` variant with the
same value; a float-valued numeric token passes through as the `Float`
variant. -/
theorem numeric_token_classification (data : List Char) (n : Int) (lit : String)
    (st1 st2 : DState) (fuel : Nat)
    (hn : -(2 ^ 63) ≤ n ∧ n < 2 ^ 63)
    (h1 : st1.cur = some (Tok.int n)) (h2 : st2.cur = some (Tok.float lit)) :
    asInterface data (fuel + 1) st1 = DRes.ok (JSONValue.int n) st1 ∧
    asInterface data (fuel + 1) st2 = DRes.ok (JSONValue.float lit) st2 ∧
    containsRune (formatInt n) '.' = false := by
  refine ⟨?_, ?_, formatInt_no_dot n⟩
  · simp [asInterface, h1, formatInt_no_dot, parseInt_formatInt n hn.1 hn.2]
  · simp [asInterface, h2]

/-- C2 (witness at 42 and 42.0). -/
theorem numeric_token_classification_witness :
    ((-(2 ^ 63) : Int) ≤ 42 ∧ (42 : Int) < 2 ^ 63) ∧
    (asInterface [] (0 + 1) ⟨[], Term.eofTerm, some (Tok.int 42), 0, none⟩ =
        DRes.ok (JSONValue.int 42)
          ⟨[], Term.eofTerm, some (Tok.int 42), 0, none⟩ ∧
      asInterface [] (0 + 1)
          ⟨[], Term.eofTerm, some (Tok.float "42.0"), 0, none⟩ =
        DRes.ok (JSONValue.float "42.0")
          ⟨[], Term.eofTerm, some (Tok.float "42.0"), 0, none⟩ ∧
      containsRune (formatInt 42) '.' = false) :=
  ⟨by decide, numeric_token_classification [] 42 "42.0" _ _ 0 (by decide) rfl rfl⟩

/-- C3: on the malformed buffer of `synData` (a letter where a value should
start) the decoder does not abort with an error at all: for every fuel
budget the scanning loop keeps consuming the latched tokenizer error and
appending zero-value entries, so decode never returns. -/
theorem syntax_error_decode_diverges (fuel : Nat) :
    UnmarshalJSON synData synStream fuel = DecOut.nofuel := by
  cases fuel with
  | zero => rfl
  | succ f =>
    cases f with
    | zero => rfl
    | succ g =>
      have hloop : JSONunmarshal synData (g + 1 + 1)
          ⟨[(Tok.str "a", 4)], Term.synTerm 5, none, 1, none⟩ [] =
          DRes.nofuel := by
        rw [JSONunmarshal]
        have h4 : synData[4]? = some ':' := rfl
        simp [tokNext, UnmarshalCustomJSON, h4, syn_loop_diverges]
      unfold UnmarshalJSON
      simp [tokNext, synStream, hloop]

/-- C4 (counterexample): a non-empty buffer holding only whitespace reaches
end-of-input with no tokens, and decode succeeds (receiver untouched)
instead of returning an error. -/
theorem whitespace_only_input_ok :
    UnmarshalJSON [' '] ⟨[], Term.eofTerm⟩ 5 = DecOut.ok none := rfl

/-- C4 (amended): whenever the tokenizer yields a first token at all and it
is not the `\x7b` delimiter — `[`, a scalar, a string, or the bare null
token — decode fails; clean end-of-input instead succeeds even on a
non-empty buffer. -/
theorem nonbrace_first_token_fails (data : List Char) (t : Tok) (o : Nat)
    (rest : List (Tok × Nat)) (term : Term) (fuel : Nat) (h : t ≠ Tok.lcurl) :
    ∃ e, UnmarshalJSON data ⟨(t, o) :: rest, term⟩ fuel = DecOut.fail e := by
  cases t with
  | lcurl => exact absurd rfl h
  | rcurl => exact ⟨.expectedOpenBrace, by unfold UnmarshalJSON; simp [tokNext]⟩
  | lbrack => exact ⟨.expectedOpenBrace, by unfold UnmarshalJSON; simp [tokNext]⟩
  | rbrack => exact ⟨.expectedOpenBrace, by unfold UnmarshalJSON; simp [tokNext]⟩
  | str s => exact ⟨.expectedDelim, by unfold UnmarshalJSON; simp [tokNext]⟩
  | int n => exact ⟨.expectedDelim, by unfold UnmarshalJSON; simp [tokNext]⟩
  | float l => exact ⟨.expectedDelim, by unfold UnmarshalJSON; simp [tokNext]⟩
  | bool b => exact ⟨.expectedDelim, by unfold UnmarshalJSON; simp [tokNext]⟩
  | null => exact ⟨.expectedDelim, by unfold UnmarshalJSON; simp [tokNext]⟩

/-- C4 (witness: decoding the bare `null` document fails). -/
theorem nonbrace_first_token_fails_witness :
    (Tok.null ≠ Tok.lcurl) ∧
    ∃ e, UnmarshalJSON ('n' :: 'u' :: 'l' :: ['l'])
      ⟨[(Tok.null, 4)], Term.eofTerm⟩ 5 = DecOut.fail e :=
  ⟨by decide, nonbrace_first_token_fails _ _ _ _ _ _ (by decide)⟩

/-- C5: encoding the nil (null-sentinel) OrderedObject yields exactly the
four bytes `null`, encoding the empty non-nil OrderedObject yields exactly
the two brace bytes, and `MarshalJSON` returns no error for either. -/
theorem marshal_null_empty_distinction :
    MarshalJSON none = ('n' :: 'u' :: 'l' :: ['l'], none) ∧
    MarshalJSON (some []) = ([lbraceC, rbraceC], none) := by
  constructor
  · simp [MarshalJSON, sliceMarshal]
  · simp [MarshalJSON, sliceMarshal]

/-- C6 (counterexample): decoding the empty input succeeds but leaves the
receiver at its zero value — the nil slice, which is the null sentinel
(it re-encodes to `null`), not the empty non-null OrderedObject. -/
theorem empty_input_receiver_is_nil :
    UnmarshalJSON [] ⟨[], Term.eofTerm⟩ 5 = DecOut.ok none ∧
    sliceMarshal none = 'n' :: 'u' :: 'l' :: ['l'] ∧
    (none : JSONMapSlice) ≠ some [] := by
  refine ⟨rfl, ?_, by simp⟩
  simp [sliceMarshal]

/-- C6 (amended): on clean end-of-input with no tokens, decode succeeds for
any buffer and any fuel, returning with the receiver untouched (the nil
null-sentinel slice, holding zero entries). -/
theorem empty_stream_decode_ok (data : List Char) (fuel : Nat) :
    UnmarshalJSON data ⟨[], Term.eofTerm⟩ fuel = DecOut.ok none := rfl

/-- C7: the encoder emits a key's raw bytes between bare quotation marks
with no escaping: a key containing a quotation mark produces output that
differs from the correctly escaped rendering (and is not valid JSON), while
`MarshalJSON` still reports no error. -/
theorem unescaped_key_breaks_json :
    MarshalJSON (some [(badKey, JSONValue.null)]) =
      (lbraceC :: '"' :: 'a' :: '"' :: 'b' :: '"' :: ':' ::
        'n' :: 'u' :: 'l' :: 'l' :: [rbraceC], none) ∧
    lbraceC :: '"' :: 'a' :: '"' :: 'b' :: '"' :: ':' ::
        'n' :: 'u' :: 'l' :: 'l' :: [rbraceC] ≠
      lbraceC :: ((writeJSONString badKey ++
        (':' :: writeJSON JSONValue.null)) ++ [rbraceC]) := by
  constructor
  · simp [MarshalJSON, sliceMarshal, itemMarshal, entriesRestBytes, badKey,
      appendByteSlice, appendRawByte, appendString, writeJSON]
  · have hesc : writeJSONString badKey =
        '"' :: 'a' :: '\\' :: '"' :: 'b' :: ['"'] := by
      simp [writeJSONString, badKey, escapeChar]
    rw [hesc]
    simp [writeJSON]

/-- C8 (counterexample): decoding an object whose colon is preceded by a
space skips the pair without error but still contributes entries: the result
holds two zero-value entries (empty key, null value), not zero. -/
theorem skip_appends_zero_entries :
    UnmarshalJSON skipData skipStream 10 =
      DecOut.ok (some [("", JSONValue.null), ("", JSONValue.null)]) := rfl

/-- C8 (amended): whenever the byte at the decoder's offset after a token is
not a colon, `UnmarshalCustomJSON` returns without error and without
consuming anything, leaving the item zero-valued (empty key, null value) —
which the scanning loop then appends to the result. -/
theorem colon_probe_skip (data : List Char) (st : DState) (fuel : Nat)
    (c : Char) (hb : data[st.lastOff]? = some c) (hc : c ≠ ':') :
    UnmarshalCustomJSON data (fuel + 1) st = DRes.ok ("", JSONValue.null) st := by
  simp [UnmarshalCustomJSON, hb, hc]

/-- C8 (witness at a one-byte buffer holding a space). -/
theorem colon_probe_skip_witness :
    (([' '] : List Char)[(0 : Nat)]? = some ' ') ∧ (' ' ≠ ':') ∧
    UnmarshalCustomJSON [' '] (0 + 1) ⟨[], Term.eofTerm, none, 0, none⟩ =
      DRes.ok ("", JSONValue.null) ⟨[], Term.eofTerm, none, 0, none⟩ :=
  ⟨rfl, by decide, colon_probe_skip [' '] ⟨[], Term.eofTerm, none, 0, none⟩ 0 ' '
    rfl (by decide)⟩

/-- C9 (counterexample): when the stream ends between a key's colon and its
value, decode does not terminate that level successfully — it returns the
end-of-input error (and a zero-value entry was appended on the way). -/
theorem truncated_mid_pair_errors :
    UnmarshalJSON truncData truncStream 10 =
      DecOut.fail (DecErr.goErr GoErr.eofErr) := rfl

/-- C9 (amended): when the token stream ends cleanly at a pair boundary —
after zero or more complete key/value pairs, before the closing `\x7d` was
ever seen — decode terminates that level successfully without error,
returning exactly the entries already collected. -/
theorem truncated_at_boundary_ok (es : List JSONMapItem)
    (hwf : wfEntries es = true) :
    UnmarshalJSON (lbraceC :: entriesBytes es)
      ⟨(Tok.lcurl, 1) :: entriesToksAll es 1, Term.eofTerm⟩ (fuelE es + 1) =
      DecOut.ok (some (decEntries es)) := by
  cases es with
  | nil => rfl
  | cons e es' =>
    obtain ⟨k, v⟩ := e
    have hes := estream_gen k v es' (lbraceC :: entriesBytes ((k, v) :: es'))
      [lbraceC] [] (by simp [entriesBytes, List.append_assoc])
    simp only [List.length_cons, List.length_nil] at hes
    have hPe := (decode_sim (lbraceC :: entriesBytes ((k, v) :: es'))
        (fuelE ((k, v) :: es') + 1)).2.1 ((k, v) :: es')
      (itemToks (k, v) 1 ++
        entriesRestToks es' (1 + (itemMarshal (k, v)).length))
      [] []
      ⟨itemToks (k, v) 1 ++
        entriesRestToks es' (1 + (itemMarshal (k, v)).length),
        Term.eofTerm, none, 1, none⟩
      [] hes hwf (by simp) (Or.inr ⟨rfl, rfl, rfl⟩) (by omega)
    obtain ⟨c, o2, heq⟩ := hPe
    unfold UnmarshalJSON
    simp [entriesToksAll, tokNext, List.append_assoc, heq, stWith]

/-- C9 (witness: decoding a one-pair object with no closing brace). -/
theorem truncated_at_boundary_ok_witness :
    wfEntries [("a", JSONValue.null)] = true ∧
    UnmarshalJSON (lbraceC :: entriesBytes [("a", JSONValue.null)])
      ⟨(Tok.lcurl, 1) :: entriesToksAll [("a", JSONValue.null)] 1,
        Term.eofTerm⟩ (fuelE [("a", JSONValue.null)] + 1) =
      DecOut.ok (some (decEntries [("a", JSONValue.null)])) :=
  ⟨by decide, truncated_at_boundary_ok _ (by decide)⟩

/-- C10: decode is not total — on the four bytes of `panicData` (an object
truncated right after its key) the colon probe reads the byte at offset 4 of
a 4-byte buffer: an index-out-of-range panic, not a returned result. -/
theorem colon_probe_panics :
    UnmarshalJSON panicData panicStream 10 = DecOut.panicked := rfl

end OrderedMap
